import Mathlib

/-!
Verification of the two scripts of the aptos-book repository:
`scripts/convert_glossary.py` (a regex based glossary reformatter) and
`scripts/improved_checker.py` (a heuristic spell and grammar checker).

Texts are modelled as `List Char`.  Regular-expression operations of the
Python source are embedded as executable scanners whose behaviour is
derived, step by step, from the semantics of the concrete patterns used
by the scripts (documented at each definition).  The model is ASCII
scoped: the character classes w, s and the lowercase conversion are the
ASCII ones, which is faithful for every input the claims are about.
-/

/-- Characters of a string literal, the working representation of text. -/
def str (s : String) : List Char := s.toList

/-! ## Glossary converter, `scripts/convert_glossary.py`

The script compiles `^\*\*(.+?)\*\*\r?\n: (.+)$` in MULTILINE mode and
runs `pattern.subn(r'## \1\n\2', text)`.  Because the pattern starts at a
line start (`^`), `.` never matches a newline, the first line must end
right after `\*\*\r?`, and the second line is consumed up to its `$`,
every match covers exactly two consecutive lines of the input and the
replacement again consists of exactly two lines.  The substitution is
therefore embedded as a left-to-right scan over the line decomposition of
the text. -/

/-- Split a text at every newline character; the newline separators are
not kept.  `splitLines` of the empty text is the single empty line. -/
def splitLines : List Char → List (List Char)
  | [] => [[]]
  | c :: cs =>
    if c = '\n' then [] :: splitLines cs
    else
      match splitLines cs with
      | [] => [[c]]
      | l :: ls => (c :: l) :: ls

/-- Rejoin lines with newline separators; the inverse of `splitLines`. -/
def joinLines : List (List Char) → List Char
  | [] => []
  | [l] => l
  | l :: l' :: ls => l ++ '\n' :: joinLines (l' :: ls)

/-- The first line of a match: `\*\*(.+?)\*\*\r?` followed by the line
end.  A newline-free line matches exactly when it is `**T**` or
`**T**\r` with `T` nonempty (`.` matches any character but the newline,
so `T` may itself contain `*` or `\r`; the non-greedy `.+?` makes the
decomposition unique because the tail `\*\*\r?\n` is anchored at the
line end).  Returns the captured term `T`. -/
def stripBoldTail (rev : List Char) : Option (List Char) :=
  match rev with
  | r1 :: r2 :: r3 :: t =>
    if r1 = '\r' then
      if r2 = '*' ∧ r3 = '*' ∧ t ≠ [] then some t.reverse else none
    else
      if r1 = '*' ∧ r2 = '*' then some ((r3 :: t).reverse) else none
  | _ => none

def parseBold (l : List Char) : Option (List Char) :=
  match l with
  | c1 :: c2 :: rest =>
    if c1 = '*' ∧ c2 = '*' then stripBoldTail rest.reverse else none
  | _ => none

/-- The second line of a match: `: (.+)$`.  A newline-free line matches
exactly when it is `: D` with `D` nonempty; returns the captured
definition `D` (greedy to the end of the line). -/
def parseColon (l : List Char) : Option (List Char) :=
  match l with
  | c1 :: c2 :: d =>
    if c1 = ':' ∧ c2 = ' ' ∧ d ≠ [] then some d else none
  | _ => none

/-- First line of the replacement `## \1\n\2`. -/
def headerLine (t : List Char) : List Char := '#' :: '#' :: ' ' :: t

/-- The `pattern.subn` scan over the line decomposition: at each line
try to match the two-line block; on a match emit the two replacement
lines and continue after the block, otherwise keep the line.  Returns
the rewritten lines and the number of substitutions. -/
def convertLines : List (List Char) → List (List Char) × Nat
  | [] => ([], 0)
  | [l] => ([l], 0)
  | l1 :: l2 :: rest =>
    match parseBold l1, parseColon l2 with
    | some t, some d =>
      let r := convertLines rest
      (headerLine t :: d :: r.1, r.2 + 1)
    | _, _ =>
      let r := convertLines (l2 :: rest)
      (l1 :: r.1, r.2)

/-- `new_text, n = pattern.subn(r'## \1\n\2', text)` of the script. -/
def glossaryConvert (s : List Char) : List Char × Nat :=
  let r := convertLines (splitLines s)
  (joinLines r.1, r.2)

/-- Number of adjacent line pairs that form a well-formed glossary
block, counted over a sliding window of width two. -/
def countBlockPairs : List (List Char) → Nat
  | l1 :: l2 :: rest =>
    (if (parseBold l1).isSome && (parseColon l2).isSome then 1 else 0) +
      countBlockPairs (l2 :: rest)
  | _ => 0

/-- Observable actions of one run of the converter script. -/
inductive GlossaryEvent where
  | printEv : List Char → GlossaryEvent
  | writeEv : List Char → GlossaryEvent
deriving DecidableEq

/-- The `Converted {n} terms.` message. -/
def convertedMsg (n : Nat) : List Char :=
  str "Converted " ++ Nat.toDigits 10 n ++ str " terms."

/-- The effect trace of the script, in source order: line 16 prints the
message, line 17 writes the new text back to the file. -/
def convertGlossaryRun (s : List Char) : List GlossaryEvent :=
  [GlossaryEvent.printEv (convertedMsg (glossaryConvert s).2),
   GlossaryEvent.writeEv (glossaryConvert s).1]

/-- Recognizer for write events. -/
def isWriteEv : GlossaryEvent → Bool
  | GlossaryEvent.writeEv _ => true
  | _ => false

/-- Recognizer for print events. -/
def isPrintEv : GlossaryEvent → Bool
  | GlossaryEvent.printEv _ => true
  | _ => false

example : glossaryConvert (str "**a**\n: b") = (str "## a\nb", 1) := by decide
example : glossaryConvert (str "**a**\nx") = (str "**a**\nx", 0) := by decide
example : glossaryConvert (str "**a**\n: **b**\n: c") = (str "## a\n**b**\n: c", 1) := by decide
example : glossaryConvert (str "## a\n**b**\n: c") = (str "## a\n## b\nc", 1) := by decide

/-! ### Shape lemmas for the two line matchers -/

lemma parseBold_shape {l t : List Char} (h : parseBold l = some t) :
    ∃ r, l = '*' :: '*' :: r := by
  match l with
  | [] => simp [parseBold] at h
  | [c] => simp [parseBold] at h
  | c1 :: c2 :: rest =>
    by_cases hc : c1 = '*' ∧ c2 = '*'
    · exact ⟨rest, by rw [hc.1, hc.2]⟩
    · simp only [parseBold, if_neg hc] at h
      exact Option.noConfusion h

lemma parseColon_shape {l d : List Char} (h : parseColon l = some d) :
    l = ':' :: ' ' :: d ∧ d ≠ [] := by
  match l with
  | [] => simp [parseColon] at h
  | [c] => simp [parseColon] at h
  | c1 :: c2 :: d' =>
    by_cases hc : c1 = ':' ∧ c2 = ' ' ∧ d' ≠ []
    · simp only [parseColon, if_pos hc] at h
      obtain rfl : d' = d := by injection h
      exact ⟨by rw [hc.1, hc.2.1], hc.2.2⟩
    · simp only [parseColon, if_neg hc] at h
      exact Option.noConfusion h

lemma parseColon_of_shape {d : List Char} (hd : d ≠ []) :
    parseColon (':' :: ' ' :: d) = some d := by
  simp [parseColon, hd]

lemma parseBold_of_shape {t : List Char} (ht : t ≠ []) :
    parseBold ('*' :: '*' :: (t ++ ['*', '*'])) = some t := by
  obtain ⟨a, tr, hrev⟩ : ∃ a tr, t.reverse = a :: tr := by
    cases hrev : t.reverse with
    | nil => exact absurd (by simpa using congrArg List.reverse hrev) ht
    | cons a tr => exact ⟨a, tr, rfl⟩
  have hr : (t ++ ['*', '*']).reverse = '*' :: '*' :: a :: tr := by
    simp [List.reverse_append, hrev]
  have hta : (a :: tr).reverse = t := by
    rw [← hrev, List.reverse_reverse]
  simp [parseBold, stripBoldTail, hr, hta]

lemma parseColon_none_of_bold {l t : List Char} (h : parseBold l = some t) :
    parseColon l = none := by
  obtain ⟨r, rfl⟩ := parseBold_shape h
  simp only [parseColon]
  rw [if_neg]
  rintro ⟨h1, -⟩
  exact absurd h1 (by decide)

lemma parseBold_none_of_colon {l d : List Char} (h : parseColon l = some d) :
    parseBold l = none := by
  obtain ⟨rfl, -⟩ := parseColon_shape h
  simp only [parseBold]
  rw [if_neg]
  rintro ⟨h1, -⟩
  exact absurd h1 (by decide)

lemma headerLine_not_bold (t : List Char) : parseBold (headerLine t) = none := by
  simp only [headerLine, parseBold]
  rw [if_neg]
  rintro ⟨h1, -⟩
  exact absurd h1 (by decide)

lemma headerLine_not_colon (t : List Char) : parseColon (headerLine t) = none := by
  simp only [headerLine, parseColon]
  rw [if_neg]
  rintro ⟨h1, -⟩
  exact absurd h1 (by decide)

/-! ### Equation lemmas for the scan -/

lemma convertLines_matched {l1 l2 : List Char} {t d : List Char}
    (rest : List (List Char))
    (h1 : parseBold l1 = some t) (h2 : parseColon l2 = some d) :
    convertLines (l1 :: l2 :: rest) =
      (headerLine t :: d :: (convertLines rest).1, (convertLines rest).2 + 1) := by
  simp [convertLines, h1, h2]

lemma convertLines_unmatched {l1 l2 : List Char} (rest : List (List Char))
    (h : parseBold l1 = none ∨ parseColon l2 = none) :
    convertLines (l1 :: l2 :: rest) =
      (l1 :: (convertLines (l2 :: rest)).1, (convertLines (l2 :: rest)).2) := by
  rcases h with h | h
  · simp [convertLines, h]
  · cases hb : parseBold l1 <;> simp [convertLines, hb, h]

lemma countBlockPairs_cons_of_colon {l2 d : List Char} (h : parseColon l2 = some d) :
    ∀ rest, countBlockPairs (l2 :: rest) = countBlockPairs rest := by
  intro rest
  cases rest with
  | nil => simp [countBlockPairs]
  | cons r rs => simp [countBlockPairs, parseBold_none_of_colon h]

/-- The substitution count of the scan equals the sliding-window count of
well-formed two-line blocks: matched blocks never overlap, because the
second line of a block can never be the first line of another. -/
theorem convertLines_count (ls : List (List Char)) :
    (convertLines ls).2 = countBlockPairs ls := by
  suffices h : ∀ (n : Nat) (ls : List (List Char)), ls.length ≤ n →
      (convertLines ls).2 = countBlockPairs ls from h ls.length ls le_rfl
  intro n
  induction n with
  | zero =>
    intro ls h
    have : ls = [] := List.length_eq_zero.mp (Nat.le_zero.mp h)
    subst this
    simp [convertLines, countBlockPairs]
  | succ n ih =>
    intro ls h
    match ls with
    | [] => simp [convertLines, countBlockPairs]
    | [l] => simp [convertLines, countBlockPairs]
    | l1 :: l2 :: rest =>
      simp only [List.length_cons] at h
      cases hb : parseBold l1 with
      | some t =>
        cases hc : parseColon l2 with
        | some d =>
          rw [convertLines_matched rest hb hc]
          have hcount : countBlockPairs (l1 :: l2 :: rest) =
              1 + countBlockPairs rest := by
            simp [countBlockPairs, hb, hc, countBlockPairs_cons_of_colon hc]
          rw [hcount, ih rest (by omega)]
          omega
        | none =>
          rw [convertLines_unmatched rest (Or.inr hc)]
          have hcount : countBlockPairs (l1 :: l2 :: rest) =
              countBlockPairs (l2 :: rest) := by
            simp [countBlockPairs, hc]
          rw [hcount, ih (l2 :: rest) (by simp only [List.length_cons]; omega)]
      | none =>
        rw [convertLines_unmatched rest (Or.inl hb)]
        have hcount : countBlockPairs (l1 :: l2 :: rest) =
            countBlockPairs (l2 :: rest) := by
          simp [countBlockPairs, hb]
        rw [hcount, ih (l2 :: rest) (by simp only [List.length_cons]; omega)]

/-! ### Round trips between texts and their line decompositions -/

lemma splitLines_ne_nil (s : List Char) : splitLines s ≠ [] := by
  match s with
  | [] => simp [splitLines]
  | c :: cs =>
    simp only [splitLines]
    split
    · simp
    · cases h : splitLines cs <;> simp

lemma joinLines_cons_of_ne {l : List Char} {ls : List (List Char)} (h : ls ≠ []) :
    joinLines (l :: ls) = l ++ '\n' :: joinLines ls := by
  cases ls with
  | nil => exact absurd rfl h
  | cons a as => rfl

lemma splitLines_cons_newline (cs : List Char) :
    splitLines ('\n' :: cs) = [] :: splitLines cs := by
  simp [splitLines]

lemma splitLines_cons_other {c : Char} (hc : c ≠ '\n') {cs l0 : List Char}
    {ls : List (List Char)} (hls : splitLines cs = l0 :: ls) :
    splitLines (c :: cs) = (c :: l0) :: ls := by
  simp [splitLines, hc, hls]

lemma join_split (s : List Char) : joinLines (splitLines s) = s := by
  induction s with
  | nil => rfl
  | cons c cs ih =>
    by_cases hc : c = '\n'
    · subst hc
      rw [splitLines_cons_newline, joinLines_cons_of_ne (splitLines_ne_nil cs), ih]
      rfl
    · obtain ⟨l, ls, hls⟩ : ∃ l ls, splitLines cs = l :: ls := by
        cases h : splitLines cs with
        | nil => exact absurd h (splitLines_ne_nil cs)
        | cons l ls => exact ⟨l, ls, rfl⟩
      rw [splitLines_cons_other hc hls]
      rw [hls] at ih
      cases ls with
      | nil => simpa [joinLines] using congrArg (c :: ·) ih
      | cons m ms =>
        calc joinLines ((c :: l) :: m :: ms)
            = (c :: l) ++ '\n' :: joinLines (m :: ms) := rfl
          _ = c :: (l ++ '\n' :: joinLines (m :: ms)) := by simp
          _ = c :: joinLines (l :: m :: ms) := rfl
          _ = c :: cs := by rw [ih]

lemma splitLines_no_newline (s : List Char) : ∀ l ∈ splitLines s, '\n' ∉ l := by
  induction s with
  | nil => simp [splitLines]
  | cons c cs ih =>
    by_cases hc : c = '\n'
    · subst hc
      rw [splitLines_cons_newline]
      intro l hl
      rcases List.mem_cons.mp hl with rfl | hl
      · simp
      · exact ih l hl
    · obtain ⟨l0, ls, hls⟩ : ∃ l0 ls, splitLines cs = l0 :: ls := by
        cases h : splitLines cs with
        | nil => exact absurd h (splitLines_ne_nil cs)
        | cons l0 ls => exact ⟨l0, ls, rfl⟩
      rw [splitLines_cons_other hc hls]
      rw [hls] at ih
      intro l hl
      rcases List.mem_cons.mp hl with rfl | hl
      · intro hmem
        rcases List.mem_cons.mp hmem with h | h
        · exact hc h.symm
        · exact ih l0 (by simp) h
      · exact ih l (by simp [hl])

lemma splitLines_of_no_newline {l : List Char} (hl : '\n' ∉ l) :
    splitLines l = [l] := by
  induction l with
  | nil => rfl
  | cons c cs ih =>
    have hc : c ≠ '\n' := fun h => hl (by simp [h])
    have hcs : '\n' ∉ cs := fun h => hl (by simp [h])
    exact splitLines_cons_other hc (ih hcs)

lemma splitLines_append_newline {l : List Char} (hl : '\n' ∉ l) (t : List Char) :
    splitLines (l ++ '\n' :: t) = l :: splitLines t := by
  induction l with
  | nil => simpa using splitLines_cons_newline t
  | cons c cs ih =>
    have hc : c ≠ '\n' := fun h => hl (by simp [h])
    have hcs : '\n' ∉ cs := fun h => hl (by simp [h])
    rw [List.cons_append]
    exact splitLines_cons_other hc (ih hcs)

lemma split_join {ls : List (List Char)} (hne : ls ≠ [])
    (h : ∀ l ∈ ls, '\n' ∉ l) : splitLines (joinLines ls) = ls := by
  induction ls with
  | nil => exact absurd rfl hne
  | cons l ls ih =>
    cases ls with
    | nil => exact splitLines_of_no_newline (h l (by simp))
    | cons m ms =>
      rw [joinLines_cons_of_ne (by simp)]
      rw [splitLines_append_newline (h l (by simp))]
      rw [ih (by simp) (fun x hx => h x (by simp [hx]))]

/-! ### The scan converts every well-formed block -/

lemma convertLines_block_infix_aux :
    ∀ (n : Nat) (pre : List (List Char)), pre.length ≤ n →
      ∀ (l1 l2 : List Char) (post : List (List Char)) (t d : List Char),
        parseBold l1 = some t → parseColon l2 = some d →
        ∃ u v, (convertLines (pre ++ l1 :: l2 :: post)).1 =
          u ++ headerLine t :: d :: v := by
  intro n
  induction n with
  | zero =>
    intro pre hlen l1 l2 post t d h1 h2
    have : pre = [] := List.length_eq_zero.mp (Nat.le_zero.mp hlen)
    subst this
    rw [List.nil_append, convertLines_matched post h1 h2]
    exact ⟨[], (convertLines post).1, rfl⟩
  | succ n ih =>
    intro pre hlen l1 l2 post t d h1 h2
    match pre with
    | [] =>
      rw [List.nil_append, convertLines_matched post h1 h2]
      exact ⟨[], (convertLines post).1, rfl⟩
    | [p] =>
      rw [List.cons_append, List.nil_append,
        convertLines_unmatched (l2 :: post) (Or.inr (parseColon_none_of_bold h1))]
      obtain ⟨u, v, huv⟩ := ih [] (by simp) l1 l2 post t d h1 h2
      rw [List.nil_append] at huv
      exact ⟨p :: u, v, by rw [huv]; rfl⟩
    | p1 :: p2 :: pre' =>
      simp only [List.length_cons] at hlen
      rw [List.cons_append, List.cons_append]
      cases hp1 : parseBold p1 with
      | some tp =>
        cases hp2 : parseColon p2 with
        | some dp =>
          rw [convertLines_matched (pre' ++ l1 :: l2 :: post) hp1 hp2]
          obtain ⟨u, v, huv⟩ := ih pre' (by omega) l1 l2 post t d h1 h2
          exact ⟨headerLine tp :: dp :: u, v, by rw [huv]; rfl⟩
        | none =>
          rw [convertLines_unmatched (pre' ++ l1 :: l2 :: post) (Or.inr hp2)]
          obtain ⟨u, v, huv⟩ :=
            ih (p2 :: pre') (by simp only [List.length_cons]; omega) l1 l2 post t d h1 h2
          rw [List.cons_append] at huv
          exact ⟨p1 :: u, v, by rw [huv]; rfl⟩
      | none =>
        rw [convertLines_unmatched (pre' ++ l1 :: l2 :: post) (Or.inl hp1)]
        obtain ⟨u, v, huv⟩ :=
          ih (p2 :: pre') (by simp only [List.length_cons]; omega) l1 l2 post t d h1 h2
        rw [List.cons_append] at huv
        exact ⟨p1 :: u, v, by rw [huv]; rfl⟩

lemma convertLines_block_infix (pre post : List (List Char)) (l1 l2 t d : List Char)
    (h1 : parseBold l1 = some t) (h2 : parseColon l2 = some d) :
    ∃ u v, (convertLines (pre ++ l1 :: l2 :: post)).1 =
      u ++ headerLine t :: d :: v :=
  convertLines_block_infix_aux pre.length pre le_rfl l1 l2 post t d h1 h2

lemma joinLines_adj_infix (u : List (List Char)) (x y : List Char)
    (v : List (List Char)) :
    ∃ a b, joinLines (u ++ x :: y :: v) = a ++ (x ++ '\n' :: y) ++ b := by
  induction u with
  | nil =>
    cases v with
    | nil => exact ⟨[], [], by simp [joinLines]⟩
    | cons w ws =>
      refine ⟨[], '\n' :: joinLines (w :: ws), ?_⟩
      rw [List.nil_append, joinLines_cons_of_ne (by simp),
        joinLines_cons_of_ne (by simp)]
      simp
  | cons p ps ih =>
    obtain ⟨a, b, hab⟩ := ih
    refine ⟨p ++ '\n' :: a, b, ?_⟩
    rw [List.cons_append, joinLines_cons_of_ne (by simp), hab]
    simp

/-- C1: for every input text containing a well-formed glossary block
(a line exactly `**T**` with nonempty `T` immediately followed by a line
`: D` with nonempty `D`), the converter output contains `## T`, a
newline and `D`, and the reported count equals the number of such
two-line blocks in the input. -/
theorem glossary_block_conversion (s t d : List Char)
    (pre post : List (List Char))
    (hs : splitLines s =
      pre ++ ('*' :: '*' :: (t ++ ['*', '*'])) :: (':' :: ' ' :: d) :: post)
    (ht : t ≠ []) (hd : d ≠ []) :
    (∃ u v, (glossaryConvert s).1 =
        u ++ ('#' :: '#' :: ' ' :: (t ++ '\n' :: d)) ++ v) ∧
      (glossaryConvert s).2 = countBlockPairs (splitLines s) := by
  constructor
  · obtain ⟨u, v, huv⟩ := convertLines_block_infix pre post _ _ t d
      (parseBold_of_shape ht) (parseColon_of_shape hd)
    obtain ⟨a, b, hab⟩ := joinLines_adj_infix u (headerLine t) d v
    refine ⟨a, b, ?_⟩
    simp only [glossaryConvert]
    rw [hs, huv, hab]
    simp [headerLine]
  · simp only [glossaryConvert]
    exact convertLines_count (splitLines s)

/-- Witness for C1 at the concrete input `**a**` + newline + `: b`. -/
theorem glossary_block_conversion_witness :
    splitLines (str "**a**\n: b") =
        [] ++ ('*' :: '*' :: (['a'] ++ ['*', '*'])) :: (':' :: ' ' :: ['b']) :: [] ∧
      (['a'] : List Char) ≠ [] ∧ (['b'] : List Char) ≠ [] ∧
      ((∃ u v, (glossaryConvert (str "**a**\n: b")).1 =
          u ++ ('#' :: '#' :: ' ' :: (['a'] ++ '\n' :: ['b'])) ++ v) ∧
        (glossaryConvert (str "**a**\n: b")).2 =
          countBlockPairs (splitLines (str "**a**\n: b"))) :=
  ⟨by decide, by decide, by decide,
    glossary_block_conversion (str "**a**\n: b") ['a'] ['b'] [] []
      (by decide) (by decide) (by decide)⟩

/-! ### Lines outside every well-formed block are kept verbatim -/

/-- The line would be consumed as the first line of a block: it is a
bold term line and the next line is a `: `-definition line. -/
def firstOfPair (l : List Char) (post : List (List Char)) : Bool :=
  (parseBold l).isSome &&
    (match post with
     | l2 :: _ => (parseColon l2).isSome
     | [] => false)

/-- The line would be consumed as the second line of a block: it is a
`: `-definition line and the previous line is a bold term line. -/
def secondOfPair (pre : List (List Char)) (l : List Char) : Bool :=
  (match pre.getLast? with
   | some lp => (parseBold lp).isSome
   | none => false) && (parseColon l).isSome

lemma secondOfPair_tail (p q : List Char) (rest : List (List Char)) (l : List Char) :
    secondOfPair (p :: q :: rest) l = secondOfPair (q :: rest) l := by
  simp [secondOfPair, List.getLast?_cons_cons]

lemma convertLines_keeps_aux :
    ∀ (n : Nat) (pre : List (List Char)), pre.length ≤ n →
      ∀ (l : List Char) (post : List (List Char)),
        firstOfPair l post = false → secondOfPair pre l = false →
        l ∈ (convertLines (pre ++ l :: post)).1 := by
  have base : ∀ (l : List Char) (post : List (List Char)),
      firstOfPair l post = false → l ∈ (convertLines (l :: post)).1 := by
    intro l post h1
    match post with
    | [] => simp [convertLines]
    | p :: rest =>
      cases hb : parseBold l with
      | some t =>
        have hp : parseColon p = none := by
          simp only [firstOfPair, hb, Option.isSome_some, Bool.true_and] at h1
          exact Option.not_isSome_iff_eq_none.mp (by simp [h1])
        rw [convertLines_unmatched rest (Or.inr hp)]
        simp
      | none =>
        rw [convertLines_unmatched rest (Or.inl hb)]
        simp
  intro n
  induction n with
  | zero =>
    intro pre hlen l post h1 h2
    have : pre = [] := List.length_eq_zero.mp (Nat.le_zero.mp hlen)
    subst this
    exact base l post h1
  | succ n ih =>
    intro pre hlen l post h1 h2
    match pre with
    | [] => exact base l post h1
    | [p] =>
      rw [List.cons_append, List.nil_append]
      have hnm : parseBold p = none ∨ parseColon l = none := by
        simp only [secondOfPair, List.getLast?_singleton] at h2
        cases hb : parseBold p with
        | none => exact Or.inl rfl
        | some tp =>
          right
          rw [hb] at h2
          simp only [Option.isSome_some, Bool.true_and] at h2
          exact Option.not_isSome_iff_eq_none.mp (by simp [h2])
      rw [convertLines_unmatched post hnm]
      exact List.mem_cons_of_mem p (base l post h1)
    | p1 :: p2 :: pre' =>
      simp only [List.length_cons] at hlen
      rw [List.cons_append, List.cons_append]
      cases hp1 : parseBold p1 with
      | some tp =>
        cases hp2 : parseColon p2 with
        | some dp =>
          rw [convertLines_matched (pre' ++ l :: post) hp1 hp2]
          have h2' : secondOfPair pre' l = false := by
            match pre' with
            | [] => rfl
            | q :: qs =>
              rw [secondOfPair_tail, secondOfPair_tail] at h2
              exact h2
          exact List.mem_cons_of_mem _ (List.mem_cons_of_mem _
            (ih pre' (by omega) l post h1 h2'))
        | none =>
          rw [convertLines_unmatched (pre' ++ l :: post) (Or.inr hp2)]
          have h2' : secondOfPair (p2 :: pre') l = false := by
            rw [secondOfPair_tail] at h2; exact h2
          have := ih (p2 :: pre') (by simp only [List.length_cons]; omega) l post h1 h2'
          rw [List.cons_append] at this
          exact List.mem_cons_of_mem p1 this
      | none =>
        rw [convertLines_unmatched (pre' ++ l :: post) (Or.inl hp1)]
        have h2' : secondOfPair (p2 :: pre') l = false := by
          rw [secondOfPair_tail] at h2; exact h2
        have := ih (p2 :: pre') (by simp only [List.length_cons]; omega) l post h1 h2'
        rw [List.cons_append] at this
        exact List.mem_cons_of_mem p1 this

lemma stripBoldTail_subset {rev t : List Char} (h : stripBoldTail rev = some t) :
    ∀ c ∈ t, c ∈ rev := by
  match rev with
  | [] => simp [stripBoldTail] at h
  | [r1] => simp [stripBoldTail] at h
  | [r1, r2] => simp [stripBoldTail] at h
  | r1 :: r2 :: r3 :: tr =>
    intro c hc
    simp only [stripBoldTail] at h
    split_ifs at h with h1 h2 h3 <;> try exact Option.noConfusion h
    · obtain rfl : tr.reverse = t := by injection h
      have : c ∈ tr := List.mem_reverse.mp hc
      simp [this]
    · obtain rfl : (r3 :: tr).reverse = t := by injection h
      have : c ∈ r3 :: tr := List.mem_reverse.mp hc
      rcases List.mem_cons.mp this with rfl | hm
      · simp
      · simp [hm]

lemma parseBold_subset {l t : List Char} (h : parseBold l = some t) :
    ∀ c ∈ t, c ∈ l := by
  obtain ⟨r, rfl⟩ := parseBold_shape h
  intro c hc
  have h' : stripBoldTail r.reverse = some t := by
    simpa [parseBold] using h
  have hmem : c ∈ r.reverse := stripBoldTail_subset h' c hc
  simp [List.mem_reverse.mp hmem]

lemma parseColon_subset {l d : List Char} (h : parseColon l = some d) :
    ∀ c ∈ d, c ∈ l := by
  obtain ⟨rfl, -⟩ := parseColon_shape h
  intro c hc
  simp [hc]

lemma convertLines_no_newline :
    ∀ (n : Nat) (ls : List (List Char)), ls.length ≤ n →
      (∀ l ∈ ls, '\n' ∉ l) → ∀ l ∈ (convertLines ls).1, '\n' ∉ l := by
  intro n
  induction n with
  | zero =>
    intro ls hlen h
    have : ls = [] := List.length_eq_zero.mp (Nat.le_zero.mp hlen)
    subst this
    simp [convertLines]
  | succ n ih =>
    intro ls hlen h
    match ls with
    | [] => simp [convertLines]
    | [l] =>
      simp only [convertLines]
      intro x hx
      rcases List.mem_cons.mp hx with rfl | hx
      · exact h x (by simp)
      · simp at hx
    | l1 :: l2 :: rest =>
      simp only [List.length_cons] at hlen
      have h1 : '\n' ∉ l1 := h l1 (by simp)
      have h2 : '\n' ∉ l2 := h l2 (by simp)
      cases hb : parseBold l1 with
      | some t =>
        cases hc : parseColon l2 with
        | some d =>
          rw [convertLines_matched rest hb hc]
          intro x hx
          rcases List.mem_cons.mp hx with rfl | hx
          · intro hmem
            simp only [headerLine, List.mem_cons] at hmem
            rcases hmem with h' | h' | h' | h'
            · exact absurd h'.symm (by decide)
            · exact absurd h'.symm (by decide)
            · exact absurd h'.symm (by decide)
            · exact h1 (parseBold_subset hb '\n' h')
          · rcases List.mem_cons.mp hx with rfl | hx
            · exact fun hmem => h2 (parseColon_subset hc '\n' hmem)
            · exact ih rest (by omega) (fun y hy => h y (by simp [hy])) x hx
        | none =>
          rw [convertLines_unmatched rest (Or.inr hc)]
          intro x hx
          rcases List.mem_cons.mp hx with rfl | hx
          · exact h1
          · exact ih (l2 :: rest) (by simp only [List.length_cons]; omega)
              (fun y hy => h y (by simp [List.mem_cons.mp hy])) x hx
      | none =>
        rw [convertLines_unmatched rest (Or.inl hb)]
        intro x hx
        rcases List.mem_cons.mp hx with rfl | hx
        · exact h1
        · exact ih (l2 :: rest) (by simp only [List.length_cons]; omega)
            (fun y hy => h y (by simp [List.mem_cons.mp hy])) x hx

lemma convertLines_ne_nil {ls : List (List Char)} (h : ls ≠ []) :
    (convertLines ls).1 ≠ [] := by
  match ls with
  | [] => exact absurd rfl h
  | [l] => simp [convertLines]
  | l1 :: l2 :: rest =>
    cases hb : parseBold l1 with
    | some t =>
      cases hc : parseColon l2 with
      | some d => rw [convertLines_matched rest hb hc]; simp
      | none => rw [convertLines_unmatched rest (Or.inr hc)]; simp
    | none => rw [convertLines_unmatched rest (Or.inl hb)]; simp

/-- C3: every input line that is not part of a well-formed glossary
block (neither a bold term line immediately followed by a definition
line, nor a definition line immediately preceded by a bold term line)
appears byte-for-byte unchanged as a line of the converter output. -/
theorem glossary_keeps_unmatched_lines (s : List Char) (l : List Char)
    (pre post : List (List Char))
    (hs : splitLines s = pre ++ l :: post)
    (h1 : firstOfPair l post = false) (h2 : secondOfPair pre l = false) :
    l ∈ splitLines (glossaryConvert s).1 := by
  simp only [glossaryConvert]
  rw [split_join (convertLines_ne_nil (splitLines_ne_nil s))
    (convertLines_no_newline (splitLines s).length (splitLines s) le_rfl
      (splitLines_no_newline s))]
  rw [hs]
  exact convertLines_keeps_aux pre.length pre le_rfl l post h1 h2

/-- Witness for C3: the malformed bold line `**a**` followed by a plain
line `x` is kept unchanged. -/
theorem glossary_keeps_unmatched_lines_witness :
    splitLines (str "**a**\nx") = [] ++ (str "**a**") :: [str "x"] ∧
      firstOfPair (str "**a**") [str "x"] = false ∧
      secondOfPair [] (str "**a**") = false ∧
      str "**a**" ∈ splitLines (glossaryConvert (str "**a**\nx")).1 :=
  ⟨by decide, by decide, by decide,
    glossary_keeps_unmatched_lines (str "**a**\nx") (str "**a**") [] [str "x"]
      (by decide) (by decide) (by decide)⟩

/-! ### Second run of the converter -/

/-- A line whose definition part, if any, is not itself a bold term
line.  The definition of a converted block reappears as a line of the
output, so this is the condition under which a block cannot create a
fresh match for a second run. -/
def defNotBold (l : List Char) : Bool :=
  match parseColon l with
  | some d => (parseBold d).isNone
  | none => true

lemma defNotBold_spec {l d : List Char} (h : defNotBold l = true)
    (hc : parseColon l = some d) : parseBold d = none := by
  simp only [defNotBold, hc] at h
  exact Option.isNone_iff_eq_none.mp h

lemma convertLines_head_colon {ls : List (List Char)} {c d : List Char}
    (hh : ((convertLines ls).1).head? = some c) (hc : parseColon c = some d) :
    ls.head? = some c := by
  match ls with
  | [] => simp [convertLines] at hh
  | [l] => simpa [convertLines] using hh
  | l1 :: l2 :: rest =>
    cases hb : parseBold l1 with
    | some t =>
      cases hcol : parseColon l2 with
      | some d2 =>
        rw [convertLines_matched rest hb hcol] at hh
        simp only [List.head?_cons, Option.some.injEq] at hh
        subst hh
        exact absurd hc (by simp [headerLine_not_colon])
      | none =>
        rw [convertLines_unmatched rest (Or.inr hcol)] at hh
        simpa using hh
    | none =>
      rw [convertLines_unmatched rest (Or.inl hb)] at hh
      simpa using hh

lemma countBlockPairs_cons_eq {l : List Char} {out : List (List Char)}
    (h : ∀ c ∈ out.head?, ((parseBold l).isSome && (parseColon c).isSome) = false) :
    countBlockPairs (l :: out) = countBlockPairs out := by
  cases out with
  | nil => simp [countBlockPairs]
  | cons c cs =>
    have := h c (by simp)
    simp [countBlockPairs, this]

lemma convertLines_no_reblocks :
    ∀ (n : Nat) (ls : List (List Char)), ls.length ≤ n →
      (∀ l ∈ ls, defNotBold l = true) →
      countBlockPairs (convertLines ls).1 = 0 := by
  intro n
  induction n with
  | zero =>
    intro ls hlen hH
    have : ls = [] := List.length_eq_zero.mp (Nat.le_zero.mp hlen)
    subst this
    simp [convertLines, countBlockPairs]
  | succ n ih =>
    intro ls hlen hH
    match ls with
    | [] => simp [convertLines, countBlockPairs]
    | [l] => simp [convertLines, countBlockPairs]
    | l1 :: l2 :: rest =>
      simp only [List.length_cons] at hlen
      cases hb : parseBold l1 with
      | some t =>
        cases hc : parseColon l2 with
        | some d =>
          rw [convertLines_matched rest hb hc]
          have hdb : parseBold d = none := defNotBold_spec (hH l2 (by simp)) hc
          rw [countBlockPairs_cons_eq (by simp [headerLine_not_bold])]
          rw [countBlockPairs_cons_eq (by simp [hdb])]
          exact ih rest (by omega) (fun y hy => hH y (by simp [hy]))
        | none =>
          rw [convertLines_unmatched rest (Or.inr hc)]
          have hrec := ih (l2 :: rest) (by simp only [List.length_cons]; omega)
            (fun y hy => hH y (by simp [List.mem_cons.mp hy]))
          rw [countBlockPairs_cons_eq ?_, hrec]
          intro c hcm
          cases hcol : parseColon c with
          | none => simp [hcol]
          | some d =>
            have : (l2 :: rest).head? = some c :=
              convertLines_head_colon (by simpa using hcm) hcol
            simp only [List.head?_cons, Option.some.injEq] at this
            subst this
            exact absurd hcol (by simp [hc])
      | none =>
        rw [convertLines_unmatched rest (Or.inl hb)]
        have hrec := ih (l2 :: rest) (by simp only [List.length_cons]; omega)
          (fun y hy => hH y (by simp [List.mem_cons.mp hy]))
        rw [countBlockPairs_cons_eq (by simp [hb]), hrec]

/-- Counterexample to C2 as stated: on the input `**a**` + newline +
`: **b**` + newline + `: c` the first run produces a text on which a
second run performs one further conversion, not zero. -/
theorem glossary_second_run_cex :
    ¬ ((glossaryConvert (glossaryConvert (str "**a**\n: **b**\n: c")).1).2 = 0) := by
  decide

/-- C2 amended: a second run of the converter reports zero conversions
provided no definition line of the input carries a definition that is
itself a bold term line (the counterexample shows the unrestricted
claim fails, because a converted definition reappears as an output line
and can pair with a following definition line). -/
theorem glossary_second_run_zero (s : List Char)
    (hH : ∀ l ∈ splitLines s, defNotBold l = true) :
    (glossaryConvert (glossaryConvert s).1).2 = 0 := by
  simp only [glossaryConvert]
  rw [split_join (convertLines_ne_nil (splitLines_ne_nil s))
    (convertLines_no_newline (splitLines s).length (splitLines s) le_rfl
      (splitLines_no_newline s))]
  rw [convertLines_count]
  exact convertLines_no_reblocks (splitLines s).length (splitLines s) le_rfl hH

/-- Witness for the amended C2 at the concrete input `**a**` + newline
+ `: b`. -/
theorem glossary_second_run_zero_witness :
    (∀ l ∈ splitLines (str "**a**\n: b"), defNotBold l = true) ∧
      (glossaryConvert (glossaryConvert (str "**a**\n: b")).1).2 = 0 :=
  ⟨by decide, glossary_second_run_zero (str "**a**\n: b") (by decide)⟩

/-! ### Order of the print and the write -/

/-- Counterexample to C9 as stated: in the effect trace of the script
the write to the glossary path does not precede the print of the
`Converted {n} terms.` message (shown at the concrete input `x`). -/
theorem glossary_write_not_before_print :
    ¬ ((convertGlossaryRun (str "x")).findIdx isWriteEv <
        (convertGlossaryRun (str "x")).findIdx isPrintEv) := by
  decide

/-- C9 amended: in every run the trace is exactly a print of the
`Converted {n} terms.` message followed by the write of the converted
text, so the print happens before the write, not after it. -/
theorem glossary_print_then_write (s : List Char) :
    convertGlossaryRun s =
      [GlossaryEvent.printEv (convertedMsg (glossaryConvert s).2),
       GlossaryEvent.writeEv (glossaryConvert s).1] ∧
      (convertGlossaryRun s).findIdx isPrintEv <
        (convertGlossaryRun s).findIdx isWriteEv := by
  refine ⟨rfl, ?_⟩
  simp [convertGlossaryRun, List.findIdx_cons, isPrintEv, isWriteEv]

/-! ## Document checker, `scripts/improved_checker.py`

`extract_text_from_markdown` applies six `re.sub` passes in order:
fenced code blocks, inline code spans, links, images, heading markers,
and the four emphasis unwrappings.  Each pass scans left to right for
the leftmost match, replaces it and resumes after the replacement, so
each is embedded as a character automaton whose pending state records
the partially matched prefix (which must be emitted verbatim when the
rest of the pattern fails or the input ends, exactly as the regex
engine keeps unmatched text unchanged). -/

/-- Python `\w` for ASCII input: letters, digits and the underscore. -/
def isWordChar (c : Char) : Bool := c.isAlpha || c.isDigit || c = '_'

/-- Python `\s` for ASCII input. -/
def isPySpace (c : Char) : Bool :=
  c = ' ' || c = '\t' || c = '\n' || c = '\r' || c = '\x0b' || c = '\x0c'

/-- States of the scan for `` ```.*?``` `` (DOTALL): outside with zero,
one or two pending backticks, or inside an opened fence with the count
of consecutive backticks towards the closing delimiter and the pending
text (reversed) that must be restored if the fence never closes. -/
inductive FenceSt where
  | out0 | out1 | out2
  | ins (ticks : Nat) (buf : List Char)

/-- Scan for `re.sub(r'```.*?```', '', content, flags=re.DOTALL)`: a
match starts at three consecutive backticks and the non-greedy body
ends at the first three consecutive backticks that follow; an unclosed
fence matches nothing and is kept verbatim. -/
def subFencedGo : FenceSt → List Char → List Char
  | FenceSt.out0, [] => []
  | FenceSt.out1, [] => ['`']
  | FenceSt.out2, [] => ['`', '`']
  | FenceSt.ins _ buf, [] => buf.reverse
  | FenceSt.out0, c :: cs =>
    if c = '`' then subFencedGo FenceSt.out1 cs
    else c :: subFencedGo FenceSt.out0 cs
  | FenceSt.out1, c :: cs =>
    if c = '`' then subFencedGo FenceSt.out2 cs
    else '`' :: c :: subFencedGo FenceSt.out0 cs
  | FenceSt.out2, c :: cs =>
    if c = '`' then subFencedGo (FenceSt.ins 0 ['`', '`', '`']) cs
    else '`' :: '`' :: c :: subFencedGo FenceSt.out0 cs
  | FenceSt.ins k buf, c :: cs =>
    if c = '`' then
      if k = 2 then subFencedGo FenceSt.out0 cs
      else subFencedGo (FenceSt.ins (k + 1) (c :: buf)) cs
    else subFencedGo (FenceSt.ins 0 (c :: buf)) cs

/-- Scan for ``re.sub(r'`[^`]*`', '', content)``: a span from one
backtick to the next is dropped; a trailing unclosed backtick is kept
(state carries the pending span, reversed, including its opening
backtick). -/
def subInlineGo : Option (List Char) → List Char → List Char
  | none, [] => []
  | some pend, [] => pend.reverse
  | none, c :: cs =>
    if c = '`' then subInlineGo (some ['`']) cs
    else c :: subInlineGo none cs
  | some pend, c :: cs =>
    if c = '`' then subInlineGo none cs
    else subInlineGo (some (c :: pend)) cs

/-- States of the scan for `\[([^\]]*)\]\([^)]*\)`: outside, inside the
bracket part, just after `]` awaiting `(`, or inside the parenthesis
part (accumulators reversed). -/
inductive LinkSt where
  | base
  | brk (t : List Char)
  | arg (t : List Char)
  | url (t u : List Char)

/-- Scan for `re.sub(r'\[([^\]]*)\]\([^)]*\)', r'\1', content)`.  When
the pattern fails after `[t]` the kept text is emitted and scanning
resumes at the failing character (which may itself open a new `[`): a
`[` inside `t` cannot start a match, because its bracket part would end
at the same first `]` and fail on the same following character. -/
def subLinksGo : LinkSt → List Char → List Char
  | LinkSt.base, [] => []
  | LinkSt.brk t, [] => '[' :: t.reverse
  | LinkSt.arg t, [] => ('[' :: t.reverse) ++ [']']
  | LinkSt.url t u, [] => ('[' :: t.reverse) ++ (']' :: '(' :: u.reverse)
  | LinkSt.base, c :: cs =>
    if c = '[' then subLinksGo (LinkSt.brk []) cs
    else c :: subLinksGo LinkSt.base cs
  | LinkSt.brk t, c :: cs =>
    if c = ']' then subLinksGo (LinkSt.arg t) cs
    else subLinksGo (LinkSt.brk (c :: t)) cs
  | LinkSt.arg t, c :: cs =>
    if c = '(' then subLinksGo (LinkSt.url t []) cs
    else if c = '[' then (('[' :: t.reverse) ++ [']']) ++ subLinksGo (LinkSt.brk []) cs
    else (('[' :: t.reverse) ++ [']', c]) ++ subLinksGo LinkSt.base cs
  | LinkSt.url t u, c :: cs =>
    if c = ')' then t.reverse ++ subLinksGo LinkSt.base cs
    else subLinksGo (LinkSt.url t (c :: u)) cs

/-- States of the scan for `!\[([^\]]*)\]\([^)]*\)`: as for links with
an extra state for a pending `!`. -/
inductive ImgSt where
  | base
  | bang
  | brk (t : List Char)
  | arg (t : List Char)
  | url (t u : List Char)

/-- Scan for `re.sub(r'!\[([^\]]*)\]\([^)]*\)', r'\1', content)`. -/
def subImagesGo : ImgSt → List Char → List Char
  | ImgSt.base, [] => []
  | ImgSt.bang, [] => ['!']
  | ImgSt.brk t, [] => '!' :: '[' :: t.reverse
  | ImgSt.arg t, [] => ('!' :: '[' :: t.reverse) ++ [']']
  | ImgSt.url t u, [] => ('!' :: '[' :: t.reverse) ++ (']' :: '(' :: u.reverse)
  | ImgSt.base, c :: cs =>
    if c = '!' then subImagesGo ImgSt.bang cs
    else c :: subImagesGo ImgSt.base cs
  | ImgSt.bang, c :: cs =>
    if c = '[' then subImagesGo (ImgSt.brk []) cs
    else if c = '!' then '!' :: subImagesGo ImgSt.bang cs
    else '!' :: c :: subImagesGo ImgSt.base cs
  | ImgSt.brk t, c :: cs =>
    if c = ']' then subImagesGo (ImgSt.arg t) cs
    else subImagesGo (ImgSt.brk (c :: t)) cs
  | ImgSt.arg t, c :: cs =>
    if c = '(' then subImagesGo (ImgSt.url t []) cs
    else if c = '!' then (('!' :: '[' :: t.reverse) ++ [']']) ++ subImagesGo ImgSt.bang cs
    else (('!' :: '[' :: t.reverse) ++ [']', c]) ++ subImagesGo ImgSt.base cs
  | ImgSt.url t u, c :: cs =>
    if c = ')' then t.reverse ++ subImagesGo ImgSt.base cs
    else subImagesGo (ImgSt.url t (c :: u)) cs

/-- States of the scan for `^#+\s*` (MULTILINE): at a line start, in
the middle of a line, consuming the `#` run, or consuming the trailing
whitespace run (remembering whether the last consumed character was a
newline, which decides whether the resume position is a line start). -/
inductive HeadSt where
  | ls | mid | hash | wsp (lastNl : Bool)

/-- Scan for `re.sub(r'^#+\s*', '', content, flags=re.MULTILINE)`.
`\s*` is greedy and also consumes newlines, exactly as in Python. -/
def subHeadingsGo : HeadSt → List Char → List Char
  | _, [] => []
  | HeadSt.ls, c :: cs =>
    if c = '#' then subHeadingsGo HeadSt.hash cs
    else c :: subHeadingsGo (if c = '\n' then HeadSt.ls else HeadSt.mid) cs
  | HeadSt.mid, c :: cs =>
    c :: subHeadingsGo (if c = '\n' then HeadSt.ls else HeadSt.mid) cs
  | HeadSt.hash, c :: cs =>
    if c = '#' then subHeadingsGo HeadSt.hash cs
    else if isPySpace c then subHeadingsGo (HeadSt.wsp (c = '\n')) cs
    else c :: subHeadingsGo HeadSt.mid cs
  | HeadSt.wsp lastNl, c :: cs =>
    if isPySpace c then subHeadingsGo (HeadSt.wsp (c = '\n')) cs
    else if lastNl ∧ c = '#' then subHeadingsGo HeadSt.hash cs
    else c :: subHeadingsGo HeadSt.mid cs

/-- States of the double-delimiter unwrapping scans
`\*\*([^*]+)\*\*` and `__([^_]+)__`: outside, one pending delimiter,
two pending delimiters plus body, or body plus one closing delimiter. -/
inductive DblSt where
  | base | one | two (t : List Char) | three (t : List Char)

/-- Scan for `re.sub(r'\*\*([^*]+)\*\*', r'\1', content)` and its `__`
analogue: the body is the maximal nonempty run free of the delimiter,
and on failure the pending prefix is emitted verbatim (a delimiter
followed by a non-delimiter cannot open a new match, so resuming in the
base state is exact). -/
def subDoubleGo (d : Char) : DblSt → List Char → List Char
  | DblSt.base, [] => []
  | DblSt.one, [] => [d]
  | DblSt.two t, [] => d :: d :: t.reverse
  | DblSt.three t, [] => (d :: d :: t.reverse) ++ [d]
  | DblSt.base, c :: cs =>
    if c = d then subDoubleGo d DblSt.one cs
    else c :: subDoubleGo d DblSt.base cs
  | DblSt.one, c :: cs =>
    if c = d then subDoubleGo d (DblSt.two []) cs
    else d :: c :: subDoubleGo d DblSt.base cs
  | DblSt.two t, c :: cs =>
    if c = d then
      if t = [] then d :: subDoubleGo d (DblSt.two []) cs
      else subDoubleGo d (DblSt.three t) cs
    else subDoubleGo d (DblSt.two (c :: t)) cs
  | DblSt.three t, c :: cs =>
    if c = d then t.reverse ++ subDoubleGo d DblSt.base cs
    else ((d :: d :: t.reverse) ++ [d, c]) ++ subDoubleGo d DblSt.base cs

/-- Scan for `re.sub(r'\*([^*]+)\*', r'\1', content)` and its `_`
analogue. -/
def subSingleGo (d : Char) : Option (List Char) → List Char → List Char
  | none, [] => []
  | some t, [] => d :: t.reverse
  | none, c :: cs =>
    if c = d then subSingleGo d (some []) cs
    else c :: subSingleGo d none cs
  | some t, c :: cs =>
    if c = d then
      if t = [] then d :: subSingleGo d (some []) cs
      else t.reverse ++ subSingleGo d none cs
    else subSingleGo d (some (c :: t)) cs

/-- `extract_text_from_markdown` of the checker: the six substitution
passes in source order. -/
def extract_text_from_markdown (content : List Char) : List Char :=
  subSingleGo '_' none (subDoubleGo '_' DblSt.base
    (subSingleGo '*' none (subDoubleGo '*' DblSt.base
      (subHeadingsGo HeadSt.ls (subImagesGo ImgSt.base
        (subLinksGo LinkSt.base (subInlineGo none
          (subFencedGo FenceSt.out0 content))))))))

example : extract_text_from_markdown (str "```\nalot\n```") = [] := by decide
example : extract_text_from_markdown (str "`recieve`") = [] := by decide
example : extract_text_from_markdown (str "see [text](url) now") = str "see text now" := by decide
example : extract_text_from_markdown (str "![alt](img.png)") = str "!alt" := by decide
example : extract_text_from_markdown (str "# Head\nbody **bold** _it_") = str "Head\nbody bold it" := by decide
example : extract_text_from_markdown (str "``` unclosed") = str "` unclosed" := by decide
example : extract_text_from_markdown (str "a `x` b `y") = str "a  b `y" := by decide

/-! ### Tokenizer and spelling table -/

/-- Maximal runs of `\w` characters of a text, in order. -/
def wordRunsGo (acc : List Char) : List Char → List (List Char)
  | [] => if acc.isEmpty then [] else [acc.reverse]
  | c :: cs =>
    if isWordChar c then wordRunsGo (c :: acc) cs
    else if acc.isEmpty then wordRunsGo [] cs
    else acc.reverse :: wordRunsGo [] cs

/-- `re.findall(r'\b[A-Za-z]+\b', text)`: a token is a maximal run of
word characters that consists solely of letters (a run touching a digit
or an underscore has no inner word boundary, so it yields nothing). -/
def findWords (text : List Char) : List (List Char) :=
  (wordRunsGo [] text).filter (fun r => r.all Char.isAlpha)

/-- The `KNOWN_MISSPELLINGS` table of the checker, in source order. -/
def KNOWN_MISSPELLINGS : List (List Char × List Char) :=
  [(str "alot", str "a lot"),
   (str "occurence", str "occurrence"),
   (str "recieve", str "receive"),
   (str "seperate", str "separate"),
   (str "definately", str "definitely"),
   (str "accomodate", str "accommodate"),
   (str "acheive", str "achieve"),
   (str "beleive", str "believe"),
   (str "concensus", str "consensus"),
   (str "publically", str "publicly"),
   (str "neccessary", str "necessary"),
   (str "priviledge", str "privilege"),
   (str "occured", str "occurred"),
   (str "begining", str "beginning"),
   (str "commited", str "committed"),
   (str "especiallly", str "especially")]

/-- The `ALLOWED_WORDS` set of the checker.  It is declared by the
source but never consulted by any detection function. -/
def ALLOWED_WORDS : List (List Char) :=
  [str "aptos", str "blockchain", str "cryptocurrency", str "crypto", str "dapp",
   str "dapps", str "sdk", str "api", str "cli", str "json", str "yaml", str "toml",
   str "typescript", str "javascript", str "webassembly", str "wasm", str "bcs",
   str "move", str "sui", str "diem", str "solana", str "ethereum", str "testnet",
   str "mainnet", str "devnet", str "fungible", str "nft", str "nfts",
   str "validator", str "validators", str "bytecode", str "merkle",
   str "parallelization", str "serialization", str "deserialization", str "struct",
   str "structs", str "enum", str "enums", str "async", str "await", str "impl",
   str "mut", str "bool", str "u8", str "u16", str "u32", str "u64", str "u128",
   str "u256", str "addr", str "signer", str "vec", str "repo", str "config",
   str "todo", str "hashmap", str "stdlib", str "framework", str "cmdline",
   str "github", str "git", str "npm", str "yarn", str "cargo", str "rust",
   str "linux", str "macos", str "ubuntu", str "homebrew", str "gui", str "url",
   str "urls", str "http", str "https", str "www", str "localhost", str "dev",
   str "src", str "bin", str "etc", str "usr", str "var", str "tmp", str "md",
   str "txt", str "py", str "js", str "ts", str "rs", str "go", str "cpp",
   str "hpp", str "html", str "css", str "scss", str "yml", str "blockstm",
   str "rocksdb", str "movestdlib", str "aptosstdlib", str "aptosstd",
   str "tablewithlength", str "mystruct",
   str "reference", str "references", str "dependencies", str "directly",
   str "friendly", str "llms", str "syntax", str "anything", str "mostly",
   str "constraints", str "constraint", str "apply", str "accordingly",
   str "assembly", str "instructions", str "entry", str "correctly",
   str "smoothly", str "cryptographic", str "represented", str "exactly",
   str "length", str "lengths", str "simply", str "empty", str "demonstrates",
   str "demonstrated", str "experience", str "thoroughly", str "system",
   str "systems", str "currently", str "quickly", str "python", str "style",
   str "algorithms", str "constructs", str "efficiently", str "methods",
   str "slightly", str "frequently", str "highly", str "especiallly"]

/-- Lookup in the misspelling table. -/
def lookupMisspelling (w : List Char) : Option (List Char) :=
  (KNOWN_MISSPELLINGS.find? (fun p => p.1 == w)).map (fun p => p.2)

/-- `check_spelling` of the checker: tokenize the lowercased text,
deduplicate (the Python source iterates over `set(words)`, whose
iteration order is unspecified; the model keeps one occurrence of each
word, so all set-like properties of the result coincide), and keep the
words that are keys of the misspelling table together with their
corrections. -/
def check_spelling (text : List Char) : List (List Char × List Char) :=
  ((findWords (text.map Char.toLower)).dedup).filterMap
    (fun w => (lookupMisspelling w).map (fun c => (w, c)))

/-! ### Grammar rules -/

/-- Case-insensitive literal match at the start of the input: the
pattern is given lowercased, the consumed characters are returned in
their original case together with the rest. -/
def matchLitCI : List Char → List Char → Option (List Char × List Char)
  | [], s => some ([], s)
  | _ :: _, [] => none
  | p :: ps, c :: cs =>
    if c.toLower = p then
      match matchLitCI ps cs with
      | some (m, r) => some (c :: m, r)
      | none => none
    else none

/-- `\b` of Python holds before a word character exactly when the
previous character (if any) is not a word character. -/
def boundaryOk : Option Char → Bool
  | none => true
  | some c => !(isWordChar c)

/-- `\b` of Python holds after a word character exactly when the next
character (if any) is not a word character. -/
def endOkWord : List Char → Bool
  | [] => true
  | c :: _ => !(isWordChar c)

/-- The generic `re.finditer` scan: at each position try `step`; on a
match emit its payload and resume at the rest, otherwise advance one
character updating the scan state with `skip`.  The fuel equals the
input length, which bounds the number of iterations because every step
of the concrete matchers consumes at least one character. -/
def scanFindF {σ α : Type} (step : σ → List Char → Option (α × σ × List Char))
    (skip : σ → Char → σ) : Nat → σ → List Char → List α
  | 0, _, _ => []
  | _ + 1, _, [] => []
  | fuel + 1, st, c :: cs =>
    match step st (c :: cs) with
    | some (x, st', rest) => x :: scanFindF step skip fuel st' rest
    | none => scanFindF step skip fuel (skip st c) cs

/-- One step of `\b<phrase>\b` (IGNORECASE): word boundary before,
the literal phrase, word boundary after; the payload is the matched
text in original case and the new state is its last character. -/
def phraseStep (phrase : List Char) (prev : Option Char) (s : List Char) :
    Option (List Char × Option Char × List Char) :=
  if boundaryOk prev then
    match matchLitCI phrase s with
    | some (m, r) => if endOkWord r then some (m, some (m.getLastD 'x'), r) else none
    | none => none
  else none

/-- All matches of `\b<phrase>\b` (IGNORECASE) in the content. -/
def findPhrase (phrase : List Char) (content : List Char) : List (List Char) :=
  scanFindF (phraseStep phrase) (fun _ c => some c) content.length none content

/-- Ordered alternation `\b(a1|a2|...)\b` tried at one position; the
first alternative that matches with its end boundary wins. -/
def tryAlts (alts : List (List Char)) (s : List Char) : Option (List Char × List Char) :=
  match alts with
  | [] => none
  | a :: rest =>
    match matchLitCI a s with
    | some (m, r) => if endOkWord r then some (m, r) else tryAlts rest s
    | none => tryAlts rest s

/-- The greedy `.*\b(alts)\b` tail: `.` does not cross a newline and
the greedy star prefers the latest alternation match on the line; the
returned text is everything consumed from the current position through
the matched alternative. -/
def greedyAlt (alts : List (List Char)) (prev : Char) : List Char → Option (List Char × List Char)
  | [] => none
  | c :: cs =>
    if c = '\n' then none
    else
      match greedyAlt alts c cs with
      | some (m, r) => some (c :: m, r)
      | none =>
        if isWordChar prev then none
        else
          match tryAlts alts (c :: cs) with
          | some (m, r) => some (m, r)
          | none => none

/-- One step of `\b<kw>\b.*\b(alts)\b` (IGNORECASE). -/
def kwRuleStep (kw : List Char) (alts : List (List Char)) (prev : Option Char)
    (s : List Char) : Option (List Char × Option Char × List Char) :=
  if boundaryOk prev then
    match matchLitCI kw s with
    | some (m1, r1) =>
      if endOkWord r1 then
        match greedyAlt alts (m1.getLastD 'x') r1 with
        | some (m2, r2) => some (m1 ++ m2, some (m2.getLastD 'x'), r2)
        | none => none
      else none
    | none => none
  else none

/-- All matches of `\b<kw>\b.*\b(alts)\b` (IGNORECASE). -/
def findKwRule (kw : List Char) (alts : List (List Char)) (content : List Char) :
    List (List Char) :=
  scanFindF (kwRuleStep kw alts) (fun _ c => some c) content.length none content

/-! ### Passive voice heuristic -/

/-- The alternation of `\b(is|are|was|were|be|been|being)`, in source
order. -/
def auxVerbs : List (List Char) :=
  [str "is", str "are", str "was", str "were", str "be", str "been", str "being"]

/-- The `\s+\w*ed\b` tail after an auxiliary verb: a nonempty
whitespace run, then the maximal word run, which must end in `ed`
(case-insensitively); returns the last consumed character and the
rest. -/
def passiveTail (s : List Char) : Option (Char × List Char) :=
  match s with
  | [] => none
  | c :: _ =>
    if isPySpace c then
      let r1 := s.dropWhile isPySpace
      let w := r1.takeWhile isWordChar
      let r2 := r1.dropWhile isWordChar
      match w.reverse with
      | cd :: ce :: _ =>
        if cd.toLower = 'd' ∧ ce.toLower = 'e' then some (cd, r2) else none
      | _ => none
    else none

/-- Try the auxiliary verbs in alternation order, each followed by the
`\s+\w*ed\b` tail (the regex backtracks to the next alternative when
the tail fails, e.g. from `be` to `been`). -/
def passiveStepAux (alts : List (List Char)) (s : List Char) : Option (Char × List Char) :=
  match alts with
  | [] => none
  | a :: rest =>
    match matchLitCI a s with
    | some (_, r) =>
      match passiveTail r with
      | some (last, r2) => some (last, r2)
      | none => passiveStepAux rest s
    | none => passiveStepAux rest s

/-- One step of `\b(is|are|was|were|be|been|being)\s+\w*ed\b`
(IGNORECASE). -/
def passiveStep (prev : Option Char) (s : List Char) :
    Option (Unit × Option Char × List Char) :=
  if boundaryOk prev then
    match passiveStepAux auxVerbs s with
    | some (last, r) => some ((), some last, r)
    | none => none
  else none

/-- `len(re.findall(r'\b(is|are|was|were|be|been|being)\s+\w*ed\b',
content, re.IGNORECASE))` of the checker. -/
def passiveCount (content : List Char) : Nat :=
  (scanFindF passiveStep (fun _ c => some c) content.length none content).length

/-! ### `check_grammar`, `check_file` and the summary of `main` -/

/-- The apostrophe character (codepoint 39). -/
def apos : Char := Char.ofNat 39

/-- The phrase of the first grammar rule. -/
def itsOwnPhrase : List Char := str "it" ++ (apos :: str "s own")

/-- `check_grammar` of the checker: the four pattern rules applied in
source order to the raw content, then the aggregate passive-voice
finding when the count exceeds 20. -/
def check_grammar (content : List Char) :
    List (List Char × List Char × List Char) :=
  ((findPhrase itsOwnPhrase content).map
    (fun m => (m, str "its own",
      (str "Possessive " ++ (apos :: str "its")) ++ (apos :: str " doesn") ++
        (apos :: str "t use an apostrophe")))) ++
  ((findPhrase (str "alot") content).map
    (fun m => (m, str "a lot", str "Should be two words"))) ++
  ((findKwRule (str "loose") [str "something", str "it", str "them"] content).map
    (fun m => (m, str "lose",
      (str "Use " ++ (apos :: str "lose")) ++ (apos :: str " not ") ++
        (apos :: str "loose") ++ (apos :: str " for the verb")))) ++
  ((findKwRule (str "then") [str "better", str "more", str "less"] content).map
    (fun m => (m, str "than",
      (str "Use " ++ (apos :: str "than")) ++ (apos :: str " for comparisons")))) ++
  (if 20 < passiveCount content then
    [(str "High passive voice",
      Nat.toDigits 10 (passiveCount content) ++ str " instances",
      str "Consider using more active voice")]
  else [])

/-- `check_file` of the checker: on a successful read, the spelling
check runs on the extracted text and the grammar check on the raw
content; a read failure is caught, a diagnostic naming the file and the
error is printed, and both issue lists are returned empty. -/
def check_file (path : List Char) (readResult : Except (List Char) (List Char)) :
    List (List Char) × List (List Char × List Char) ×
      List (List Char × List Char × List Char) :=
  match readResult with
  | Except.ok content =>
    ([], check_spelling (extract_text_from_markdown content), check_grammar content)
  | Except.error e =>
    ([str "Error reading " ++ path ++ (str ": " ++ e)], [], [])

/-- The four counters of the summary block of `main`. -/
structure CheckSummary where
  totalFiles : Nat
  filesWithIssues : Nat
  totalSpelling : Nat
  totalGrammar : Nat
deriving DecidableEq

/-- One iteration of the loop of `main` over the discovered files. -/
def summaryStep (acc : CheckSummary)
    (file : List Char × Except (List Char) (List Char)) : CheckSummary :=
  let r := check_file file.1 file.2
  let sp := r.2.1
  let gr := r.2.2
  { totalFiles := acc.totalFiles + 1
    filesWithIssues :=
      if sp ≠ [] ∨ gr ≠ [] then acc.filesWithIssues + 1 else acc.filesWithIssues
    totalSpelling := if sp ≠ [] then acc.totalSpelling + sp.length else acc.totalSpelling
    totalGrammar := if gr ≠ [] then acc.totalGrammar + gr.length else acc.totalGrammar }

/-- The summary of a run of `main` over the given files, each paired
with the outcome of reading it. -/
def mainSummary (files : List (List Char × Except (List Char) (List Char))) :
    CheckSummary :=
  files.foldl summaryStep ⟨0, 0, 0, 0⟩

example : check_spelling (str "recieve") = [(str "recieve", str "receive")] := by decide
example : check_spelling (extract_text_from_markdown (str "`recieve`")) = [] := by decide
example : check_grammar (str "```\nalot\n```") =
    [(str "alot", str "a lot", str "Should be two words")] := by decide
example : passiveCount (str "is used and was tested") = 2 := by decide

/-- C10: grammar rules are applied to the raw (non-stripped) content,
so a file whose only content is a fenced code block containing `alot`
gets a grammar finding even though the same content produces no
spelling finding. -/
theorem grammar_fires_inside_code_block :
    check_grammar (str "```\nalot\n```") =
        [(str "alot", str "a lot", str "Should be two words")] ∧
      check_spelling (extract_text_from_markdown (str "```\nalot\n```")) = [] :=
  ⟨by decide, by decide⟩

/-- C8: a file whose read fails yields the diagnostic naming the file
and the error and empty issue lists, and appending such a file to a run
increments only the total file count, leaving the files-with-issues,
spelling and grammar totals unchanged. -/
theorem check_file_error_skipped (path e : List Char)
    (files : List (List Char × Except (List Char) (List Char))) :
    check_file path (Except.error e) =
        ([str "Error reading " ++ path ++ (str ": " ++ e)], [], []) ∧
      mainSummary (files ++ [(path, Except.error e)]) =
        { totalFiles := (mainSummary files).totalFiles + 1
          filesWithIssues := (mainSummary files).filesWithIssues
          totalSpelling := (mainSummary files).totalSpelling
          totalGrammar := (mainSummary files).totalGrammar } := by
  constructor
  · rfl
  · show (files ++ [(path, Except.error e)]).foldl summaryStep ⟨0, 0, 0, 0⟩ = _
    rw [List.foldl_append]
    simp [mainSummary, summaryStep, check_file]

/-- C6: the spelling check consults only the misspelling table: a
tokenized word of the text yields a finding exactly when it is a key of
the table, independently of the allowed-word set, and a file holding
only allowed-list words such as `blockchain validator` is reported
clean. -/
theorem spelling_only_consults_misspellings (text w : List Char)
    (hw : w ∈ (findWords (text.map Char.toLower)).dedup) :
    ((∃ c, (w, c) ∈ check_spelling text) ↔ (lookupMisspelling w).isSome) ∧
      str "blockchain" ∈ ALLOWED_WORDS ∧ str "validator" ∈ ALLOWED_WORDS ∧
      check_spelling (str "blockchain validator") = [] := by
  refine ⟨⟨?_, ?_⟩, by decide, by decide, by decide⟩
  · rintro ⟨c, hc⟩
    simp only [check_spelling, List.mem_filterMap] at hc
    obtain ⟨a, ha, hmap⟩ := hc
    cases hlook : lookupMisspelling a with
    | none => rw [hlook] at hmap; exact Option.noConfusion hmap
    | some c' =>
      rw [hlook] at hmap
      simp only [Option.map_some'] at hmap
      obtain ⟨h1, h2⟩ := Prod.mk.injEq .. ▸ (Option.some.injEq .. ▸ hmap)
      have : a = w := by
        have := congrArg Prod.fst (Option.some.inj hmap)
        simpa using this
      rw [← this, hlook]
      rfl
  · intro hsome
    obtain ⟨c, hc⟩ := Option.isSome_iff_exists.mp hsome
    refine ⟨c, ?_⟩
    simp only [check_spelling, List.mem_filterMap]
    exact ⟨w, hw, by rw [hc]; rfl⟩

/-- Witness for C6 at the concrete text `occured`. -/
theorem spelling_only_consults_misspellings_witness :
    str "occured" ∈ (findWords ((str "occured").map Char.toLower)).dedup ∧
      (((∃ c, (str "occured", c) ∈ check_spelling (str "occured")) ↔
          (lookupMisspelling (str "occured")).isSome) ∧
        str "blockchain" ∈ ALLOWED_WORDS ∧ str "validator" ∈ ALLOWED_WORDS ∧
        check_spelling (str "blockchain validator") = []) :=
  ⟨by decide,
    spelling_only_consults_misspellings (str "occured") (str "occured") (by decide)⟩

/-! ### Texts without markdown trigger characters pass extraction unchanged -/

lemma subFencedGo_id {s : List Char} (h : ∀ c ∈ s, c ≠ '`') :
    subFencedGo FenceSt.out0 s = s := by
  induction s with
  | nil => rfl
  | cons c cs ih =>
    have hc : c ≠ '`' := h c (by simp)
    simp only [subFencedGo, if_neg hc]
    rw [ih (fun x hx => h x (by simp [hx]))]

lemma subInlineGo_id {s : List Char} (h : ∀ c ∈ s, c ≠ '`') :
    subInlineGo none s = s := by
  induction s with
  | nil => rfl
  | cons c cs ih =>
    have hc : c ≠ '`' := h c (by simp)
    simp only [subInlineGo, if_neg hc]
    rw [ih (fun x hx => h x (by simp [hx]))]

lemma subLinksGo_id {s : List Char} (h : ∀ c ∈ s, c ≠ '[') :
    subLinksGo LinkSt.base s = s := by
  induction s with
  | nil => rfl
  | cons c cs ih =>
    have hc : c ≠ '[' := h c (by simp)
    simp only [subLinksGo, if_neg hc]
    rw [ih (fun x hx => h x (by simp [hx]))]

lemma subImagesGo_id {s : List Char} (h : ∀ c ∈ s, c ≠ '!') :
    subImagesGo ImgSt.base s = s := by
  induction s with
  | nil => rfl
  | cons c cs ih =>
    have hc : c ≠ '!' := h c (by simp)
    simp only [subImagesGo, if_neg hc]
    rw [ih (fun x hx => h x (by simp [hx]))]

lemma subHeadingsGo_id {s : List Char} (h : ∀ c ∈ s, c ≠ '#') :
    subHeadingsGo HeadSt.ls s = s ∧ subHeadingsGo HeadSt.mid s = s := by
  induction s with
  | nil => exact ⟨rfl, rfl⟩
  | cons c cs ih =>
    have hc : c ≠ '#' := h c (by simp)
    obtain ⟨ih1, ih2⟩ := ih (fun x hx => h x (by simp [hx]))
    constructor
    · simp only [subHeadingsGo, if_neg hc]
      by_cases hn : c = '\n' <;> simp [hn, ih1, ih2]
    · simp only [subHeadingsGo]
      by_cases hn : c = '\n' <;> simp [hn, ih1, ih2]

lemma subDoubleGo_id {d : Char} {s : List Char} (h : ∀ c ∈ s, c ≠ d) :
    subDoubleGo d DblSt.base s = s := by
  induction s with
  | nil => rfl
  | cons c cs ih =>
    have hc : c ≠ d := h c (by simp)
    simp only [subDoubleGo, if_neg hc]
    rw [ih (fun x hx => h x (by simp [hx]))]

lemma subSingleGo_id {d : Char} {s : List Char} (h : ∀ c ∈ s, c ≠ d) :
    subSingleGo d none s = s := by
  induction s with
  | nil => rfl
  | cons c cs ih =>
    have hc : c ≠ d := h c (by simp)
    simp only [subSingleGo, if_neg hc]
    rw [ih (fun x hx => h x (by simp [hx]))]

/-- A character that triggers none of the six substitution passes. -/
def plainChar (c : Char) : Bool :=
  !(c = '`' || c = '[' || c = '!' || c = '#' || c = '*' || c = '_')

lemma plainChar_spec {c : Char} (h : plainChar c = true) :
    c ≠ '`' ∧ c ≠ '[' ∧ c ≠ '!' ∧ c ≠ '#' ∧ c ≠ '*' ∧ c ≠ '_' := by
  simp only [plainChar, Bool.not_eq_true', Bool.or_eq_false_iff, decide_eq_false_iff_not] at h
  exact ⟨h.1.1.1.1.1, h.1.1.1.1.2, h.1.1.1.2, h.1.1.2, h.1.2, h.2⟩

/-- Extraction is the identity on a text without any of the six trigger
characters. -/
lemma extract_id {s : List Char} (h : ∀ c ∈ s, plainChar c = true) :
    extract_text_from_markdown s = s := by
  have hP := fun c hc => plainChar_spec (h c hc)
  simp only [extract_text_from_markdown]
  rw [subFencedGo_id (fun c hc => (hP c hc).1)]
  rw [subInlineGo_id (fun c hc => (hP c hc).1)]
  rw [subLinksGo_id (fun c hc => (hP c hc).2.1)]
  rw [subImagesGo_id (fun c hc => (hP c hc).2.2.1)]
  rw [(subHeadingsGo_id (fun c hc => (hP c hc).2.2.2.1)).1]
  rw [subDoubleGo_id (fun c hc => (hP c hc).2.2.2.2.1)]
  rw [subSingleGo_id (fun c hc => (hP c hc).2.2.2.2.1)]
  rw [subDoubleGo_id (fun c hc => (hP c hc).2.2.2.2.2)]
  rw [subSingleGo_id (fun c hc => (hP c hc).2.2.2.2.2)]

/-! ### Tokenization of a single word between separators -/

lemma wordRunsGo_nil_of_nonword {a : List Char} (ha : ∀ c ∈ a, isWordChar c = false) :
    wordRunsGo [] a = [] := by
  induction a with
  | nil => rfl
  | cons c cs ih =>
    have hc := ha c (by simp)
    simp [wordRunsGo, hc, ih (fun x hx => ha x (by simp [hx]))]

lemma wordRunsGo_skip {a : List Char} (ha : ∀ c ∈ a, isWordChar c = false) :
    ∀ s, wordRunsGo [] (a ++ s) = wordRunsGo [] s := by
  induction a with
  | nil => intro s; rfl
  | cons c cs ih =>
    intro s
    have hc := ha c (by simp)
    simp only [List.cons_append, wordRunsGo, hc]
    simpa using ih (fun x hx => ha x (by simp [hx])) s

lemma wordRunsGo_take_word {w : List Char} (hw : ∀ c ∈ w, isWordChar c = true) :
    ∀ (acc s : List Char), wordRunsGo acc (w ++ s) = wordRunsGo (w.reverse ++ acc) s := by
  induction w with
  | nil => intro acc s; rfl
  | cons c cs ih =>
    intro acc s
    have hc := hw c (by simp)
    simp only [List.cons_append, wordRunsGo, hc, if_pos]
    show wordRunsGo (c :: acc) (cs ++ s) = _
    rw [ih (fun x hx => hw x (by simp [hx])) (c :: acc) s]
    congr 1
    simp

lemma wordRunsGo_end_nonword {acc : List Char} (hacc : acc ≠ []) {b : List Char}
    (hb : ∀ c ∈ b, isWordChar c = false) :
    wordRunsGo acc b = [acc.reverse] := by
  cases b with
  | nil => simp [wordRunsGo, hacc]
  | cons c cs =>
    have hc := hb c (by simp)
    have hcs : wordRunsGo [] cs = [] :=
      wordRunsGo_nil_of_nonword (fun x hx => hb x (by simp [hx]))
    simp [wordRunsGo, hc, hacc, hcs]

/-- A lone all-letter token between nonword separators is the only
token found. -/
lemma findWords_single_token {a w b : List Char}
    (ha : ∀ c ∈ a, isWordChar c = false) (hb : ∀ c ∈ b, isWordChar c = false)
    (hw : w ≠ []) (hwa : ∀ c ∈ w, c.isAlpha = true) :
    findWords (a ++ (w ++ b)) = [w] := by
  have hww : ∀ c ∈ w, isWordChar c = true := fun c hc => by
    simp [isWordChar, hwa c hc]
  simp only [findWords]
  rw [wordRunsGo_skip ha (w ++ b)]
  rw [wordRunsGo_take_word hww [] b]
  rw [wordRunsGo_end_nonword (by simpa using hw) hb]
  have hall : w.all (fun c => c.isAlpha) = true := List.all_eq_true.mpr hwa
  simp [hall]

/-- A character whose lowercase form is a letter of `occured` triggers
no substitution pass. -/
lemma plainChar_of_toLower_mem {c : Char} (h : c.toLower ∈ str "occured") :
    plainChar c = true := by
  by_contra hp
  have hdis : c = '`' ∨ c = '[' ∨ c = '!' ∨ c = '#' ∨ c = '*' ∨ c = '_' := by
    by_contra hd
    push_neg at hd
    exact hp (by
      simp [plainChar, hd.1, hd.2.1, hd.2.2.1, hd.2.2.2.1, hd.2.2.2.2.1, hd.2.2.2.2.2])
  rcases hdis with rfl | rfl | rfl | rfl | rfl | rfl <;> exact absurd h (by decide)

/-- C7: a file whose content is the token `occured` in any letter case
between space separators is reported with the suggestion `occurred`:
tokens are lowercased before the table lookup, so the match is case
insensitive. -/
theorem misspelling_any_case_reported (a w b : List Char)
    (ha : ∀ c ∈ a, c = ' ') (hb : ∀ c ∈ b, c = ' ')
    (hw : w.map Char.toLower = str "occured") :
    (str "occured", str "occurred") ∈
      check_spelling (extract_text_from_markdown (a ++ (w ++ b))) := by
  have hplain : ∀ c ∈ a ++ (w ++ b), plainChar c = true := by
    intro c hc
    rcases List.mem_append.mp hc with hc' | hc'
    · rw [ha c hc']; decide
    · rcases List.mem_append.mp hc' with hc'' | hc''
      · exact plainChar_of_toLower_mem (by rw [← hw]; exact List.mem_map_of_mem _ hc'')
      · rw [hb c hc'']; decide
  rw [extract_id hplain]
  simp only [check_spelling]
  rw [List.map_append, List.map_append, hw]
  have ha' : ∀ c ∈ a.map Char.toLower, isWordChar c = false := by
    intro c hc
    obtain ⟨x, hx, rfl⟩ := List.mem_map.mp hc
    rw [ha x hx]
    decide
  have hb' : ∀ c ∈ b.map Char.toLower, isWordChar c = false := by
    intro c hc
    obtain ⟨x, hx, rfl⟩ := List.mem_map.mp hc
    rw [hb x hx]
    decide
  rw [findWords_single_token ha' hb' (by decide) (by decide)]
  decide

/-- Witness for C7 at the concrete content ` Occured `. -/
theorem misspelling_any_case_reported_witness :
    (∀ c ∈ [' '], c = ' ') ∧ ((str "Occured").map Char.toLower = str "occured") ∧
      (str "occured", str "occurred") ∈
        check_spelling (extract_text_from_markdown ([' '] ++ (str "Occured" ++ [' ']))) :=
  ⟨by decide, by decide,
    misspelling_any_case_reported [' '] (str "Occured") [' ']
      (by decide) (by decide) (by decide)⟩

/-! ### Code spans are removed whole by the first two passes -/

lemma subFencedGo_append {a : List Char} (ha : ∀ c ∈ a, c ≠ '`') :
    ∀ s, subFencedGo FenceSt.out0 (a ++ s) = a ++ subFencedGo FenceSt.out0 s := by
  induction a with
  | nil => intro s; rfl
  | cons c cs ih =>
    intro s
    have hc := ha c (by simp)
    simp only [List.cons_append, subFencedGo, if_neg hc, List.append_eq]
    rw [ih (fun x hx => ha x (by simp [hx])) s]

lemma subFencedGo_out1_tickfree {b : List Char} (hb : ∀ c ∈ b, c ≠ '`') :
    subFencedGo FenceSt.out1 b = '`' :: b := by
  cases b with
  | nil => rfl
  | cons c cs =>
    have hc := hb c (by simp)
    simp only [subFencedGo, if_neg hc]
    rw [subFencedGo_id (fun x hx => hb x (by simp [hx]))]

lemma subFencedGo_out2_tickfree {b : List Char} (hb : ∀ c ∈ b, c ≠ '`') :
    subFencedGo FenceSt.out2 b = '`' :: '`' :: b := by
  cases b with
  | nil => rfl
  | cons c cs =>
    have hc := hb c (by simp)
    simp only [subFencedGo, if_neg hc]
    rw [subFencedGo_id (fun x hx => hb x (by simp [hx]))]

lemma subFencedGo_out1_span {w : List Char} (hw : ∀ c ∈ w, c ≠ '`') :
    ∀ {b : List Char}, (∀ c ∈ b, c ≠ '`') →
      subFencedGo FenceSt.out1 (w ++ '`' :: b) = '`' :: (w ++ '`' :: b) := by
  induction w with
  | nil =>
    intro b hb
    simp only [List.nil_append, subFencedGo, if_pos rfl]
    exact subFencedGo_out2_tickfree hb
  | cons c cs ih =>
    intro b hb
    have hc := hw c (by simp)
    simp only [List.cons_append, subFencedGo, if_neg hc, List.append_eq]
    rw [subFencedGo_append (fun x hx => hw x (by simp [hx])) ('`' :: b)]
    simp only [subFencedGo, if_pos rfl, if_true]
    rw [subFencedGo_out1_tickfree hb]

lemma subFencedGo_inline_span {a w b : List Char}
    (ha : ∀ c ∈ a, c ≠ '`') (hw : ∀ c ∈ w, c ≠ '`') (hb : ∀ c ∈ b, c ≠ '`') :
    subFencedGo FenceSt.out0 (a ++ '`' :: (w ++ '`' :: b)) =
      a ++ '`' :: (w ++ '`' :: b) := by
  rw [subFencedGo_append ha]
  simp only [subFencedGo, if_pos rfl, if_true]
  rw [subFencedGo_out1_span hw hb]

lemma subFencedGo_ins_skip {w : List Char} (hw : ∀ c ∈ w, c ≠ '`') :
    ∀ (buf s : List Char),
      subFencedGo (FenceSt.ins 0 buf) (w ++ s) =
        subFencedGo (FenceSt.ins 0 (w.reverse ++ buf)) s := by
  induction w with
  | nil => intro buf s; simp
  | cons c cs ih =>
    intro buf s
    have hc := hw c (by simp)
    simp only [List.cons_append, subFencedGo, if_neg hc, List.append_eq]
    rw [ih (fun x hx => hw x (by simp [hx])) (c :: buf) s]
    congr 1
    simp

lemma subFencedGo_fence_removed {a w b : List Char}
    (ha : ∀ c ∈ a, c ≠ '`') (hw : ∀ c ∈ w, c ≠ '`') (hb : ∀ c ∈ b, c ≠ '`') :
    subFencedGo FenceSt.out0
        (a ++ '`' :: '`' :: '`' :: (w ++ '`' :: '`' :: '`' :: b)) = a ++ b := by
  rw [subFencedGo_append ha]
  simp only [subFencedGo, if_pos rfl, if_true]
  rw [subFencedGo_ins_skip hw]
  simp [subFencedGo, subFencedGo_id hb]

lemma subInlineGo_append {a : List Char} (ha : ∀ c ∈ a, c ≠ '`') :
    ∀ s, subInlineGo none (a ++ s) = a ++ subInlineGo none s := by
  induction a with
  | nil => intro s; rfl
  | cons c cs ih =>
    intro s
    have hc := ha c (by simp)
    simp only [List.cons_append, subInlineGo, if_neg hc, List.append_eq]
    rw [ih (fun x hx => ha x (by simp [hx])) s]

lemma subInlineGo_pend_skip {w : List Char} (hw : ∀ c ∈ w, c ≠ '`') :
    ∀ (p s : List Char),
      subInlineGo (some p) (w ++ s) = subInlineGo (some (w.reverse ++ p)) s := by
  induction w with
  | nil => intro p s; simp
  | cons c cs ih =>
    intro p s
    have hc := hw c (by simp)
    simp only [List.cons_append, subInlineGo, if_neg hc, List.append_eq]
    rw [ih (fun x hx => hw x (by simp [hx])) (c :: p) s]
    congr 1
    simp

lemma subInlineGo_span_removed {a w b : List Char}
    (ha : ∀ c ∈ a, c ≠ '`') (hw : ∀ c ∈ w, c ≠ '`') (hb : ∀ c ∈ b, c ≠ '`') :
    subInlineGo none (a ++ '`' :: (w ++ '`' :: b)) = a ++ b := by
  rw [subInlineGo_append ha]
  simp only [subInlineGo, if_pos rfl, if_true]
  rw [subInlineGo_pend_skip hw _ ('`' :: b)]
  simp only [subInlineGo, if_pos rfl, if_true]
  rw [subInlineGo_id hb]

/-- C5: a word that sits inside an inline code span or inside a fenced
code block contributes nothing to the spelling findings: removing the
span (with its content) from the input leaves the spelling result
unchanged, because the first two extraction passes delete the span
before tokenization. -/
theorem code_spans_no_spelling (a w b : List Char)
    (ha : ∀ c ∈ a, c ≠ '`') (hw : ∀ c ∈ w, c ≠ '`') (hb : ∀ c ∈ b, c ≠ '`') :
    check_spelling (extract_text_from_markdown (a ++ '`' :: (w ++ '`' :: b))) =
        check_spelling (extract_text_from_markdown (a ++ b)) ∧
      check_spelling (extract_text_from_markdown
          (a ++ '`' :: '`' :: '`' :: (w ++ '`' :: '`' :: '`' :: b))) =
        check_spelling (extract_text_from_markdown (a ++ b)) := by
  have hab : ∀ c ∈ a ++ b, c ≠ '`' := by
    intro c hc
    rcases List.mem_append.mp hc with h | h
    · exact ha c h
    · exact hb c h
  constructor
  · simp only [extract_text_from_markdown]
    rw [subFencedGo_inline_span ha hw hb, subInlineGo_span_removed ha hw hb,
      subFencedGo_id hab, subInlineGo_id hab]
  · simp only [extract_text_from_markdown]
    rw [subFencedGo_fence_removed ha hw hb, subFencedGo_id hab]

/-- Witness for C5: the file containing only an inline code span with
the misspelling `recieve` yields zero spelling issues, while the same
word outside any code span yields exactly one. -/
theorem code_spans_no_spelling_witness :
    (check_spelling (extract_text_from_markdown
          ([] ++ '`' :: (str "recieve" ++ '`' :: []))) =
        check_spelling (extract_text_from_markdown ([] ++ [])) ∧
      check_spelling (extract_text_from_markdown
          ([] ++ '`' :: '`' :: '`' :: (str "recieve" ++ '`' :: '`' :: '`' :: []))) =
        check_spelling (extract_text_from_markdown ([] ++ []))) ∧
      check_spelling (extract_text_from_markdown (str "recieve")) =
        [(str "recieve", str "receive")] ∧
      check_spelling (extract_text_from_markdown ([] ++ [])) = [] :=
  ⟨code_spans_no_spelling [] (str "recieve") []
      (by decide) (by decide) (by decide),
    by decide, by decide⟩

/-! ### The passive-voice finding is the only one with its label -/

lemma scanFindF_payload {σ α : Type}
    (step : σ → List Char → Option (α × σ × List Char)) (skip : σ → Char → σ)
    (Q : α → Prop)
    (hQ : ∀ st s x st' rest, step st s = some (x, st', rest) → Q x) :
    ∀ (fuel : Nat) (st : σ) (s : List Char) (x : α),
      x ∈ scanFindF step skip fuel st s → Q x := by
  intro fuel
  induction fuel with
  | zero => intro st s x hx; simp [scanFindF] at hx
  | succ n ih =>
    intro st s x hx
    match s with
    | [] => simp [scanFindF] at hx
    | c :: cs =>
      cases hstep : step st (c :: cs) with
      | some y =>
        obtain ⟨x', st', rest⟩ := y
        simp only [scanFindF, hstep] at hx
        rcases List.mem_cons.mp hx with rfl | hx
        · exact hQ st (c :: cs) x st' rest hstep
        · exact ih st' rest x hx
      | none =>
        simp only [scanFindF, hstep] at hx
        exact ih (skip st c) cs x hx

lemma matchLitCI_length : ∀ {pat s m r : List Char},
    matchLitCI pat s = some (m, r) → m.length = pat.length := by
  intro pat
  induction pat with
  | nil =>
    intro s m r h
    simp only [matchLitCI, Option.some.injEq, Prod.mk.injEq] at h
    rw [← h.1]
  | cons p ps ih =>
    intro s m r h
    match s with
    | [] => simp [matchLitCI] at h
    | c :: cs =>
      simp only [matchLitCI] at h
      by_cases hcl : c.toLower = p
      · rw [if_pos hcl] at h
        cases hm : matchLitCI ps cs with
        | none => rw [hm] at h; exact Option.noConfusion h
        | some mr =>
          obtain ⟨m', r'⟩ := mr
          rw [hm] at h
          simp only [Option.some.injEq, Prod.mk.injEq] at h
          rw [← h.1]
          simp [ih hm]
      · rw [if_neg hcl] at h
        exact Option.noConfusion h

lemma matchLitCI_head {p : Char} {ps s m r : List Char}
    (h : matchLitCI (p :: ps) s = some (m, r)) :
    ∃ c m', m = c :: m' ∧ c.toLower = p := by
  match s with
  | [] => simp [matchLitCI] at h
  | c :: cs =>
    simp only [matchLitCI] at h
    by_cases hcl : c.toLower = p
    · rw [if_pos hcl] at h
      cases hm : matchLitCI ps cs with
      | none => rw [hm] at h; exact Option.noConfusion h
      | some mr =>
        obtain ⟨m', r'⟩ := mr
        rw [hm] at h
        simp only [Option.some.injEq, Prod.mk.injEq] at h
        exact ⟨c, m', h.1.symm, hcl⟩
    · rw [if_neg hcl] at h
      exact Option.noConfusion h

lemma phraseStep_matches {phrase : List Char} {prev : Option Char} {s x : List Char}
    {st' : Option Char} {rest : List Char}
    (h : phraseStep phrase prev s = some (x, st', rest)) :
    ∃ r, matchLitCI phrase s = some (x, r) := by
  simp only [phraseStep] at h
  split at h
  · cases hm : matchLitCI phrase s with
    | none =>
      simp only [hm] at h
      exact Option.noConfusion h
    | some mr =>
      obtain ⟨m, r⟩ := mr
      simp only [hm] at h
      split at h
      · simp only [Option.some.injEq, Prod.mk.injEq] at h
        exact ⟨r, by rw [h.1]⟩
      · exact Option.noConfusion h
  · exact Option.noConfusion h

lemma kwRuleStep_matches {kw : List Char} {alts : List (List Char)}
    {prev : Option Char} {s x : List Char} {st' : Option Char} {rest : List Char}
    (h : kwRuleStep kw alts prev s = some (x, st', rest)) :
    ∃ m1 m2 r1, matchLitCI kw s = some (m1, r1) ∧ x = m1 ++ m2 := by
  simp only [kwRuleStep] at h
  split at h
  · cases hm : matchLitCI kw s with
    | none =>
      simp only [hm] at h
      exact Option.noConfusion h
    | some mr =>
      obtain ⟨m1, r1⟩ := mr
      simp only [hm] at h
      split at h
      · cases hg : greedyAlt alts (m1.getLastD 'x') r1 with
        | none =>
          simp only [hg] at h
          exact Option.noConfusion h
        | some g =>
          obtain ⟨m2, r2⟩ := g
          simp only [hg] at h
          simp only [Option.some.injEq, Prod.mk.injEq] at h
          exact ⟨m1, m2, r1, rfl, h.1.symm⟩
      · exact Option.noConfusion h
  · exact Option.noConfusion h

/-- The label of the aggregate passive-voice finding. -/
def highPassiveLabel : List Char := str "High passive voice"

lemma findPhrase_ne_high {phrase content m : List Char}
    (hm : m ∈ findPhrase phrase content)
    (hlen : phrase.length ≠ highPassiveLabel.length) : m ≠ highPassiveLabel := by
  intro heq
  apply hlen
  have := scanFindF_payload (phraseStep phrase) (fun _ c => some c)
    (fun x => x.length = phrase.length)
    (fun st s x st' rest h => by
      obtain ⟨r, hr⟩ := phraseStep_matches h
      exact matchLitCI_length hr)
    content.length none content m hm
  rw [← this, heq]

lemma findKwRule_ne_high {kw : List Char} {alts : List (List Char)}
    {content m : List Char} (hm : m ∈ findKwRule kw alts content)
    (kw0 : Char) (hk : kw.head? = some kw0) (hne : kw0 ≠ 'h') :
    m ≠ highPassiveLabel := by
  obtain ⟨kw1, kw', rfl⟩ : ∃ kw1 kw', kw = kw1 :: kw' := by
    cases kw with
    | nil => exact absurd hk (by simp)
    | cons a as => exact ⟨a, as, rfl⟩
  obtain rfl : kw0 = kw1 := by simpa using hk.symm
  have hhead := scanFindF_payload (kwRuleStep (kw0 :: kw') alts) (fun _ c => some c)
    (fun x => ∃ c m', x = c :: m' ∧ c.toLower = kw0)
    (fun st s x st' rest h => by
      obtain ⟨m1, m2, r1, hmt, rfl⟩ := kwRuleStep_matches h
      obtain ⟨c, m', rfl, hcl⟩ := matchLitCI_head hmt
      exact ⟨c, m' ++ m2, by simp, hcl⟩)
    content.length none content m hm
  obtain ⟨c, m', rfl, hcl⟩ := hhead
  intro heq
  have hc : c = 'H' := by
    have hH : highPassiveLabel.head? = some 'H' := by decide
    have h2 := congrArg List.head? heq
    rw [hH] at h2
    simpa using h2
  rw [hc] at hcl
  exact hne (by rw [← hcl]; decide)

/-- C4: the grammar check emits exactly one finding labelled
`High passive voice` when the count of auxiliary-verb-then-`ed`-word
occurrences in the raw content exceeds 20 and none otherwise, and the
finding carries the exact count. -/
theorem high_passive_threshold (content : List Char) :
    (check_grammar content).countP (fun i => i.1 == highPassiveLabel) =
        (if 20 < passiveCount content then 1 else 0) ∧
      (20 < passiveCount content →
        (highPassiveLabel,
          Nat.toDigits 10 (passiveCount content) ++ str " instances",
          str "Consider using more active voice") ∈ check_grammar content) := by
  constructor
  · simp only [check_grammar, List.countP_append]
    have z : ∀ (l : List (List Char)) (sugg expl : List Char),
        (∀ m ∈ l, m ≠ highPassiveLabel) →
        (l.map (fun m => (m, sugg, expl))).countP
          (fun i => i.1 == highPassiveLabel) = 0 := by
      intro l sugg expl hl
      rw [List.countP_eq_zero]
      intro i hi
      obtain ⟨m, hm, rfl⟩ := List.mem_map.mp hi
      simpa using hl m hm
    rw [z _ _ _ (fun m hm => findPhrase_ne_high hm (by decide))]
    rw [z _ _ _ (fun m hm => findPhrase_ne_high hm (by decide))]
    rw [z _ _ _ (fun m hm => findKwRule_ne_high hm 'l' (by decide) (by decide))]
    rw [z _ _ _ (fun m hm => findKwRule_ne_high hm 't' (by decide) (by decide))]
    by_cases hp : 20 < passiveCount content
    · rw [if_pos hp, if_pos hp]
      simp [highPassiveLabel, List.countP_cons]
    · rw [if_neg hp, if_neg hp]
      simp
  · intro hp
    simp only [check_grammar, List.mem_append]
    simp [hp, highPassiveLabel]

set_option maxRecDepth 40000 in
/-- Witness for C4: a content of 21 repetitions of `is ed ` exceeds the
threshold and receives the aggregate finding with its exact count. -/
theorem high_passive_threshold_witness :
    20 < passiveCount (List.flatten (List.replicate 21 (str "is ed "))) ∧
      (highPassiveLabel,
        Nat.toDigits 10 (passiveCount (List.flatten (List.replicate 21 (str "is ed ")))) ++
          str " instances",
        str "Consider using more active voice") ∈
        check_grammar (List.flatten (List.replicate 21 (str "is ed "))) :=
  ⟨by decide, (high_passive_threshold _).2 (by decide)⟩
